import Mathlib

/-!
Verification of the LotusDB core (rosedblabs/lotusdb) against its source.

This file is a shallow embedding of the parts of the source that the
verified properties talk about:

* the Go varint machinery used by the in-memory value slot encoding
  (encoding/binary PutVarint / Varint, i.e. zig-zag plus LEB128),
* the memtable tier (memtable.put / memtable.get / memValue encode-decode,
  from the memtable source file),
* the database-level helpers from db.go: getMemTables, waitMemtableSpace,
  the flush classification loop, the auto-compaction threshold signaling,
  the per-record validity test of CompactWithDeprecatedtable, the
  file-replacement step sequence of both compaction strategies, and the
  DEPMETA counter persistence of Close/Open.

Machine integers are modelled as Nat / Int with explicit `% 2 ^ 64` where
Go's uint64 wrap-around matters.  Bytes are naturals (below 256 on every
value the code produces).  Stateful Go code is modelled by explicit state
passing; fallible calls into external collaborators (the WAL library, the
index, the skip list arena) are modelled by explicit outcome parameters.
-/

namespace LotusDB

/-! ## Go varint machinery (encoding/binary)

`memValue.encode` calls binary.PutVarint and `decodeMemValue` calls
binary.Varint.  These live in the Go standard library; they are modelled
byte-for-byte from its documented algorithm: PutUvarint emits base-128
digits little-endian with a continuation bit, PutVarint first zig-zags the
signed value through uint64, Uvarint reads digits back with Go's exact
overflow checks (MaxVarintLen64 = 10), Varint un-zig-zags the result. -/

/-- Go binary.PutUvarint: little-endian base-128 with continuation bit. -/
def putUvarint (u : Nat) : List Nat :=
  if u < 128 then [u]
  else (u % 128 + 128) :: putUvarint (u / 128)
termination_by u
decreasing_by omega

/-- Loop of Go binary.Uvarint.  `x` is the accumulator, `s` the current
shift, `i` the byte index.  Returns the decoded value and the byte count
(`≤ 0` encodes Go's failure returns: 0 for a truncated buffer, `-(i+1)`
for overflow).  uint64 arithmetic is modelled with `% 2 ^ 64`. -/
def uvarintAux : List Nat → Nat → Nat → Nat → Nat × Int
  | [], _, _, _ => (0, 0)
  | b :: rest, x, s, i =>
    if i = 10 then (0, -(i + 1 : Int))
    else if b < 128 then
      if i = 9 ∧ 1 < b then (0, -(i + 1 : Int))
      else (x ||| (b <<< s) % 2 ^ 64, (i + 1 : Int))
    else uvarintAux rest (x ||| ((b % 128) <<< s) % 2 ^ 64) (s + 7) (i + 1)

/-- Go binary.Uvarint. -/
def uvarint (buf : List Nat) : Nat × Int :=
  uvarintAux buf 0 0 0

/-- The zig-zag step of Go binary.PutVarint:
`ux := uint64(x) << 1; if x < 0 { ux = ^ux }`.
`uint64 x` is the two's-complement reinterpretation `x % 2 ^ 64`;
the bitwise NOT of a uint64 `u` is `2 ^ 64 - 1 - u`. -/
def zigzag (x : Int) : Nat :=
  let m : Nat := (x % (2 ^ 64 : Int)).toNat
  let ux : Nat := m * 2 % 2 ^ 64
  if x < 0 then 2 ^ 64 - 1 - ux else ux

/-- The un-zig-zag step of Go binary.Varint:
`x := int64(ux >> 1); if ux & 1 != 0 { x = ^x }` where `^x = -x - 1`. -/
def unzigzag (u : Nat) : Int :=
  if u % 2 = 1 then -((u / 2 : Nat) : Int) - 1 else ((u / 2 : Nat) : Int)

/-- Go binary.PutVarint. -/
def putVarint (x : Int) : List Nat :=
  putUvarint (zigzag x)

/-- Go binary.Varint. -/
def varint (buf : List Nat) : Int × Int :=
  let p := uvarint buf
  (unzigzag p.1, p.2)

/-! ## Memtable value slots (memtable source file) -/

/-- Modelled from the spec: `walEntry.TypeDelete`, the tombstone type tag
of the WAL-entry package, is declared outside src/; the spec's entry kinds
are `Normal` and `Tombstone`, modelled as the distinct bytes 0 and 1. -/
def TypeDelete : Nat := 1

/-- Modelled from the spec: the `LogRecordDeleted` type tag checked by
`DB.flushMemtable` is declared outside src/; it is the tombstone tag,
distinct from the zero (normal) tag, modelled as the byte 1. -/
def LogRecordDeleted : Nat := 1

/-- The in-memory value slot of the memtable: `memValue` from the
memtable source file (value bytes, expiration, type tag). -/
structure memValue where
  value : List Nat
  expiredAt : Int
  typ : Nat
deriving DecidableEq, Repr

/-- `memValue.encode` from the memtable source file: an 11-byte scratch
head receives the type tag at offset 0 and the PutVarint expiration at
offset 1; `buf` is the used head bytes (`head[:index]`, i.e. the tag byte
followed by the varint bytes) followed by the raw value bytes. -/
def memValue.encode (mv : memValue) : List Nat :=
  mv.typ :: (putVarint mv.expiredAt ++ mv.value)

/-- `decodeMemValue` from the memtable source file: the tag is `buf[0]`
(`headD` models the in-range access), the expiration is `Varint(buf[1:])`
consuming `n` bytes, and the value is the remainder `buf[1+n:]`. -/
def decodeMemValue (buf : List Nat) : memValue :=
  let p := varint (buf.drop 1)
  { typ := buf.headD 0, expiredAt := p.1, value := buf.drop (1 + p.2).toNat }

/-! ## Memtable state and operations -/

/-- badger's `y.ValueStruct` as the skip list stores it: `memtable.put`
stores the encoded `memValue` in `Value` and leaves `Meta` at its zero
value; `DB.flushMemtable` reads `Meta`. -/
structure ValueStruct where
  meta : Nat
  value : List Nat
deriving DecidableEq, Repr

/-- Lookup in the skip list keyed by raw key bytes.  arenaskl's `Get`
returns the zero ValueStruct (nil `Value`) on a missing key; the memtable
only ever stores non-nil encoded slots, so `Option` models the nil check
`valStru.Value == nil` of `memtable.get`. -/
def sklGet : List (List Nat × ValueStruct) → List Nat → Option ValueStruct
  | [], _ => none
  | (k, v) :: rest, key => if k = key then some v else sklGet rest key

/-- arenaskl's `Put`: overwrite the slot of an existing key, otherwise
insert (the ordering of the association list is irrelevant to lookup). -/
def sklPut : List (List Nat × ValueStruct) → List Nat → ValueStruct →
    List (List Nat × ValueStruct)
  | [], key, vs => [(key, vs)]
  | (k, v) :: rest, key, vs =>
    if k = key then (k, vs) :: rest else (k, v) :: sklPut rest key vs

/-- `memOptions` from the memtable source file. -/
structure memOptions where
  path : String
  dirId : Nat
  memSize : Nat
  walByteFlush : Nat
  WALSync : Bool
deriving DecidableEq, Repr

/-- The per-write options consumed by `memtable.put` (`EntryOptions` is
declared with the repository options; the fields used in src/ are
`Sync`, `DisableWal` and `ExpiredAt`). -/
structure EntryOptions where
  Sync : Bool
  DisableWal : Bool
  ExpiredAt : Int
deriving DecidableEq, Repr

/-- `walEntry.WalLogEntry` as `memtable.put` builds it (the Go field
`Type` is a Lean keyword, hence `Typ`). -/
structure WalLogEntry where
  Key : List Nat
  Value : List Nat
  ExpiredAt : Int
  Typ : Nat
deriving DecidableEq, Repr

/-- The memtable: its WAL (`none` models a nil `wal` handle; the list is
the sequence of appended entries), its skip list, its options, and an
abstract fullness flag.

The `full` field is modelled from the spec: `is_full()` ("the arena has
insufficient free space for at least one worst-case entry") reads arena
internals of the external skip list, so it is abstracted to a boolean
observation of the state. -/
structure Memtable where
  wal : Option (List WalLogEntry)
  skl : List (List Nat × ValueStruct)
  opts : memOptions
  full : Bool
deriving DecidableEq, Repr

/-- Modelled from the spec: `is_full()` of the memtable, abstracted to the
`full` observation (the arena accounting lives in the external skip
list). -/
def Memtable.isFull (mt : Memtable) : Bool :=
  mt.full

/-- `memtable.put` from the memtable source file.  The outcomes of the two
fallible external calls (`wal.Write`, `wal.Sync`) are passed in as
`walWriteErr` / `walSyncErr` (`some e` = the call fails with error `e`).
Following the source: the entry is built (expiration kept only when
positive, tombstone tag when `deleted`); when the WAL is enabled the entry
is appended to the WAL first and a write error returns immediately; a
requested sync that fails also returns before the skip list is touched;
only then is the encoded `memValue` installed in the skip list (with zero
`Meta`, as `y.ValueStruct{Value: mvBuf}` does). -/
def Memtable.put (mt : Memtable) (key value : List Nat) (deleted : Bool)
    (opts : EntryOptions) (walWriteErr walSyncErr : Option Nat) :
    Option Nat × Memtable :=
  let entry : WalLogEntry :=
    { Key := key, Value := value
      ExpiredAt := if opts.ExpiredAt > 0 then opts.ExpiredAt else 0
      Typ := if deleted then TypeDelete else 0 }
  let install : Memtable → Option Nat × Memtable := fun m =>
    let mv : memValue := { value := value, expiredAt := entry.ExpiredAt, typ := entry.Typ }
    (none, { m with skl := sklPut m.skl key { meta := 0, value := mv.encode } })
  if ¬opts.DisableWal ∧ mt.wal.isSome then
    match walWriteErr with
    | some e => (some e, mt)
    | none =>
      let mtW : Memtable := { mt with wal := mt.wal.map (fun w => w ++ [entry]) }
      if opts.Sync ∧ ¬mt.opts.WALSync then
        match walSyncErr with
        | some e => (some e, mtW)
        | none => install mtW
      else install mtW
  else install mt

/-- `memtable.get` from the memtable source file.  `now` stands for
`time.Now().Unix()`.  Absent key: `(false, nil)`.  Tombstone tag or a
positive expiration that is ≤ now: `(true, nil)`.  Otherwise the live
value: `(false, value)`. -/
def Memtable.get (mt : Memtable) (now : Int) (key : List Nat) :
    Bool × Option (List Nat) :=
  match sklGet mt.skl key with
  | none => (false, none)
  | some vs =>
    let mv := decodeMemValue vs.value
    if mv.typ = TypeDelete then (true, none)
    else if 0 < mv.expiredAt ∧ mv.expiredAt ≤ now then (true, none)
    else (false, some mv.value)

/-- `memtable.delete` from the memtable source file: a put of a nil value
with the tombstone flag. -/
def Memtable.delete (mt : Memtable) (key : List Nat) (opts : EntryOptions)
    (walWriteErr walSyncErr : Option Nat) : Option Nat × Memtable :=
  mt.put key [] true opts walWriteErr walSyncErr

/-! ## Database memtable tier (db.go) -/

/-- The slice of DB state that `getMemTables` and `waitMemtableSpace`
touch: the active memtable and the immutable list (appended to at the
tail, so the newest immutable memtable is last). -/
structure DbMemState where
  activeMem : Memtable
  immuMems : List Memtable
deriving DecidableEq, Repr

/-- `DB.getMemTables` (db.go): the active memtable first, then the loop
`last := len(immuMems) - 1; for i := range immuMems { append(tables,
immuMems[last-i]) }`.  Every index `last - i` is in range, so the `getD`
default is never consulted. -/
def getMemTables (db : DbMemState) : List Memtable :=
  let tables := [db.activeMem]
  let last := db.immuMems.length - 1
  tables ++ (List.range db.immuMems.length).map
    (fun i => db.immuMems.getD (last - i) db.activeMem)

/-- Modelled from the spec: the read path over the memtable tier
("check active memtable → each immutable memtable from newest to oldest
→ index lookup").  The Batch read code of src/batch.go is a stub, so the
tier walk is modelled from the spec's words: the first memtable that does
not miss (a miss being `(false, nil)`) settles the result, later tiers are
not consulted. -/
def lookupMemtables (now : Int) (key : List Nat) :
    List Memtable → Option (Bool × Option (List Nat))
  | [] => none
  | t :: rest =>
    let r := t.get now key
    if r = (false, none) then lookupMemtables now key rest else some r

/-- The errors of db.go that the modelled operations return.
`waitMemtableSpaceTimeOut` is `ErrWaitMemtableSpaceTimeOut`;
`openMemtableFailed` stands for an error propagated from `openMemtable`. -/
inductive DbError
  | waitMemtableSpaceTimeOut
  | openMemtableFailed
deriving DecidableEq, Repr

/-- `DB.waitMemtableSpace` (db.go).  The `select` between the flush
channel send and the timeout timer is resolved by the environment:
`flushAccepted` tells whether `flushChan <- activeMem` was accepted before
the timer fired.  `newTable` is the outcome of the external
`openMemtable(options)` call on the rotation path (the source bumps
`options.tableID` and opens a fresh WAL directory).  On the timer branch
the function returns `ErrWaitMemtableSpaceTimeOut` having touched
nothing. -/
def waitMemtableSpace (db : DbMemState) (flushAccepted : Bool)
    (newTable : Except DbError Memtable) : Option DbError × DbMemState :=
  if ¬db.activeMem.isFull then (none, db)
  else if flushAccepted then
    let db1 : DbMemState := { db with immuMems := db.immuMems ++ [db.activeMem] }
    match newTable with
    | .error e => (some e, db1)
    | .ok table => (none, { db1 with activeMem := table })
  else (some .waitMemtableSpaceTimeOut, db)

/-! ## Flush classification and auto-compaction signaling (db.go) -/

/-- The classification loop of `DB.flushMemtable` (db.go): iterate the
skip list entries in order; an entry goes to `deletedKeys` exactly when
`valueStruct.Meta == LogRecordDeleted`, otherwise its key and raw
`valueStruct.Value` become a live value-log record.  The fresh `uuid.New()`
of each live record is external and plays no role in the classification,
so records are modelled as key-value pairs. -/
def flushClassify : List (List Nat × ValueStruct) →
    List (List Nat) × List (List Nat × List Nat)
  | [] => ([], [])
  | (key, vs) :: rest =>
    let r := flushClassify rest
    if vs.meta = LogRecordDeleted then (key :: r.1, r.2)
    else (r.1, (key, vs.value) :: r.2)

/-- The two compaction signals of db.go. -/
inductive ThresholdState
  | arriveUpperThreshold
  | arriveLowerThreshold
deriving DecidableEq, Repr

/-- The threshold check at the end of `DB.flushMemtable` (db.go), run when
auto-compaction is enabled.  The thresholds are the uint32 conversions
`uint32(float32(totalNumber) * rate)` computed by the source; they enter
here as the already-computed numbers so that the branch structure — `≥`
upper sends the upper signal, else `>` lower sends the lower signal, else
nothing — is exactly the source's. -/
def autoCompactSignal (deprecatedNumber lowerThreshold upperThreshold : Nat) :
    Option ThresholdState :=
  if deprecatedNumber ≥ upperThreshold then some .arriveUpperThreshold
  else if deprecatedNumber > lowerThreshold then some .arriveLowerThreshold
  else none

/-! ## Compaction (db.go) -/

/-- The index backend variants. -/
inductive IndexType
  | BTree
  | Hash
deriving DecidableEq, Repr

/-- A position record as the compaction loops consult it: the partition
and the chunk position of the live version of a key (chunk positions are
abstracted to a single number compared with `reflect.DeepEqual` in the
source). -/
structure KeyPosition where
  partition : Nat
  position : Nat
deriving DecidableEq, Repr

/-- A decoded value-log record: key, value, and the stable uid minted at
flush time. -/
structure ValueLogRecord where
  key : List Nat
  value : List Nat
  uid : Nat
deriving DecidableEq, Repr

/-- One loop iteration of `DB.CompactWithDeprecatedtable` (db.go) acting
on `validRecords`, given the decoded `record` at chunk position `pos` of
partition `part`.  `isDep` is `vlog.isDeprecated`; `indexGet` is the index
lookup (for the hash index the source reads the position out of the
`MatchKeyFunc` side channel, modelled as the oracle's answer).  The
source appends the record when its uid is not deprecated; then, when the
index type is Hash, it additionally consults the index — a nil position
skips the rest of the iteration, and a position equal to
`(part, pos)` appends the record again. -/
def compactDepStep (isDep : Nat → Nat → Bool)
    (indexGet : List Nat → Option KeyPosition) (indexType : IndexType)
    (part pos : Nat) (validRecords : List ValueLogRecord)
    (record : ValueLogRecord) : List ValueLogRecord :=
  let v1 := if ¬isDep part record.uid then validRecords ++ [record] else validRecords
  if indexType = IndexType.Hash then
    match indexGet record.key with
    | none => v1
    | some keyPos =>
      if keyPos.partition = part ∧ keyPos.position = pos then v1 ++ [record]
      else v1
  else v1

/-- The hash-index position check of the compaction loops, as a predicate
on the oracle: the key has a position and it equals `(part, pos)`. -/
def hashPositionValid (indexGet : List Nat → Option KeyPosition)
    (part pos : Nat) (key : List Nat) : Bool :=
  match indexGet key with
  | none => false
  | some keyPos => decide (keyPos.partition = part ∧ keyPos.position = pos)

/-- The file-level actions a compaction partition worker performs, in the
order the source lines execute them. -/
inductive CompactAction
  | processChunk
  | deleteOldFile
  | closeNewFile
  | renameNewFileExt
  | syncNewFile
  | reopenNewFile
deriving DecidableEq, Repr

/-- The replacement steps at the end of a partition worker of
`DB.Compact` (db.go): `walFiles[part].Delete()`, `newVlogFile.Close()`,
`newVlogFile.RenameFileExt(live extension)`, reopen.  No sync of the new
file appears (the new file is opened with `Sync: false, BytesPerSync: 0`
and no `Sync()` call is made on it). -/
def vlogReplaceSteps : List CompactAction :=
  [.deleteOldFile, .closeNewFile, .renameNewFileExt, .reopenNewFile]

/-- The file-action trace of one `DB.Compact` partition worker that reads
`n` chunks: the record-processing loop touches only the reader and the
pending buffer of the new file, then the replacement steps run. -/
def compactPartitionTrace (n : Nat) : List CompactAction :=
  List.replicate n .processChunk ++ vlogReplaceSteps

/-- The file-action trace of one `DB.CompactWithDeprecatedtable`
partition worker that reads `n` chunks; its replacement tail
(db.go) is the same Delete-Close-Rename-reopen sequence. -/
def compactWithDepPartitionTrace (n : Nat) : List CompactAction :=
  List.replicate n .processChunk ++ vlogReplaceSteps

/-! ## DEPMETA persistence (db.go Open / Close) -/

/-- The four little-endian bytes of a uint32, as
`binary.Write(file, binary.LittleEndian, &x)` emits them. -/
def putUint32LE (x : Nat) : List Nat :=
  [x % 256, x / 256 % 256, x / 65536 % 256, x / 16777216 % 256]

/-- The DEPMETA bytes a clean `DB.Close` writes (db.go): the file is
truncated, then `deprecatedNumber` and `totalNumber` are written as
little-endian uint32 in that order. -/
def closeDepMetaBytes (deprecatedNumber totalNumber : Nat) : List Nat :=
  putUint32LE deprecatedNumber ++ putUint32LE totalNumber

/-- One `binary.Read(file, binary.LittleEndian, &x)` of a uint32: consume
four bytes, little-endian; fewer than four bytes is an error. -/
def readUint32LE : List Nat → Option (Nat × List Nat)
  | b0 :: b1 :: b2 :: b3 :: rest =>
    some (b0 + b1 * 256 + b2 * 65536 + b3 * 16777216, rest)
  | _ => none

/-- The DEPMETA read of `Open` (db.go): `deprecatedNumber` first, then
`totalEntryNumber`, both little-endian uint32. -/
def openReadDepMeta (bytes : List Nat) : Option (Nat × Nat) :=
  match readUint32LE bytes with
  | none => none
  | some (dep, rest) =>
    match readUint32LE rest with
    | none => none
    | some (total, _) => some (dep, total)

/-! ## Concrete example states used by the closed instances below -/

/-- Default memtable options for the concrete examples. -/
def mOptsDefault : memOptions :=
  ⟨default, 0, 0, 0, false⟩

/-- A memtable holding the live value 65 under key 1 (the slot bytes are
the encoding of a normal, never-expiring `memValue`). -/
def mtLiveA : Memtable :=
  ⟨some [], [([1], ⟨0, [0, 0, 65]⟩)], mOptsDefault, false⟩

/-- A memtable holding the live value 66 under the same key 1. -/
def mtLiveB : Memtable :=
  ⟨some [], [([1], ⟨0, [0, 0, 66]⟩)], mOptsDefault, false⟩

/-- A memtable holding the live value 9 under key 1. -/
def mtLive9 : Memtable :=
  ⟨some [], [([1], ⟨0, [0, 0, 9]⟩)], mOptsDefault, false⟩

/-- A skip-list slot whose decoded `memValue` is normal (tag 0) but
carries the expiration timestamp 1, with zero `Meta` as `memtable.put`
stores it.  The slot bytes `[0, 2, 42]` are the encoding of the
`memValue` with value `[42]`, expiration 1 and tag 0 (tag byte 0, zig-zag
varint of 1 = `[2]`, then the value byte). -/
def vsExpired : ValueStruct :=
  ⟨0, [0, 2, 42]⟩

/-- A memtable holding the expired slot `vsExpired` under key 9. -/
def mtExpired : Memtable :=
  ⟨some [], [([9], vsExpired)], mOptsDefault, false⟩

/-- An empty memtable whose arena reports full. -/
def mtFullExample : Memtable :=
  ⟨some [], [], mOptsDefault, true⟩

/-! # Theorems -/

/-! ## Varint helper lemmas -/

/-- Bitwise OR of a number below `2 ^ s` with a multiple of `2 ^ s` is
plain addition: the operands occupy disjoint bit ranges. -/
theorem lor_mul_two_pow {x s : Nat} (c : Nat) (hx : x < 2 ^ s) :
    x ||| c * 2 ^ s = x + c * 2 ^ s := by
  calc x ||| c * 2 ^ s = 2 ^ s * c ||| x := by rw [Nat.lor_comm, Nat.mul_comm]
    _ = 2 ^ s * c + x := (Nat.mul_add_lt_is_or hx c).symm
    _ = x + c * 2 ^ s := by ring

/-- The zig-zag image always fits in a uint64 (it is built from uint64
operations). -/
theorem zigzag_lt (x : Int) : zigzag x < 2 ^ 64 := by
  simp only [zigzag,
    show ((2 : Int) ^ 64 = 18446744073709551616) from by norm_num,
    show ((2 : Nat) ^ 64 = 18446744073709551616) from by norm_num]
  split <;> omega

/-- Closed form of zig-zag on nonnegative int64 values. -/
theorem zigzag_eq_nonneg {x : Int} (h0 : 0 ≤ x) (h2 : x < 2 ^ 63) :
    zigzag x = 2 * x.toNat := by
  simp only [zigzag,
    show ((2 : Int) ^ 64 = 18446744073709551616) from by norm_num,
    show ((2 : Nat) ^ 64 = 18446744073709551616) from by norm_num]
  rw [if_neg (by omega)]
  have h3 : (2 : Int) ^ 63 = 9223372036854775808 := by norm_num
  rw [h3] at h2
  omega

/-- Closed form of zig-zag on negative int64 values. -/
theorem zigzag_eq_neg {x : Int} (h1 : -(2 ^ 63) ≤ x) (h0 : x < 0) :
    zigzag x = 2 * (-x).toNat - 1 := by
  simp only [zigzag,
    show ((2 : Int) ^ 64 = 18446744073709551616) from by norm_num,
    show ((2 : Nat) ^ 64 = 18446744073709551616) from by norm_num]
  rw [if_pos h0]
  have h3 : (2 : Int) ^ 63 = 9223372036854775808 := by norm_num
  rw [h3] at h1
  omega

/-- Zig-zag followed by un-zig-zag is the identity on int64-ranged
values. -/
theorem unzigzag_zigzag {x : Int} (h1 : -(2 ^ 63) ≤ x) (h2 : x < 2 ^ 63) :
    unzigzag (zigzag x) = x := by
  rcases le_or_lt 0 x with h0 | h0
  · rw [zigzag_eq_nonneg h0 h2]
    simp only [unzigzag]
    rw [if_neg (by omega)]
    omega
  · rw [zigzag_eq_neg h1 h0]
    have hn : 1 ≤ (-x).toNat := by omega
    simp only [unzigzag]
    rw [if_pos (by omega)]
    omega

/-- Running the Uvarint loop over an encoded value (followed by anything)
adds the value, shifted into place, to the accumulator and counts the
encoded bytes.  The invariants mirror the loop: the shift is seven times
the byte index, at most nine bytes were consumed so far, the accumulator
sits below the current shift window, and the finished value fits in a
uint64. -/
theorem uvarintAux_putUvarint (u : Nat) : ∀ (x s i : Nat) (rest : List Nat),
    s = 7 * i → i ≤ 9 → x < 2 ^ s → x + u * 2 ^ s < 2 ^ 64 →
    uvarintAux (putUvarint u ++ rest) x s i =
      (x + u * 2 ^ s, (i : Int) + (putUvarint u).length) := by
  induction u using Nat.strong_induction_on with
  | _ u ih =>
    intro x s i rest hs hi hx hbound
    by_cases hu : u < 128
    · have hpu : putUvarint u = [u] := by rw [putUvarint]; simp [hu]
      rw [hpu]
      simp only [List.cons_append, List.nil_append, uvarintAux]
      have hi10 : ¬i = 10 := by omega
      have hfit : u * 2 ^ s < 2 ^ 64 := by omega
      have hnot9 : ¬(i = 9 ∧ 1 < u) := by
        rintro ⟨h9, hub⟩
        subst h9
        subst hs
        have h2u : 2 * 2 ^ (7 * 9) ≤ u * 2 ^ (7 * 9) :=
          Nat.mul_le_mul_right _ (by omega)
        simp only [show (7 * 9 = 63) from by norm_num,
          show ((2 : Nat) ^ 63 = 9223372036854775808) from by norm_num,
          show ((2 : Nat) ^ 64 = 18446744073709551616) from by norm_num] at *
        omega
      rw [if_neg hi10, if_pos hu, if_neg hnot9, Nat.shiftLeft_eq,
        Nat.mod_eq_of_lt hfit, lor_mul_two_pow u hx]
      congr 1
    · have hpu : putUvarint u = (u % 128 + 128) :: putUvarint (u / 128) := by
        rw [putUvarint]; simp [hu]
      rw [hpu]
      simp only [List.cons_append, uvarintAux, List.length_cons]
      have hi10 : ¬i = 10 := by omega
      have hb : ¬u % 128 + 128 < 128 := by omega
      rw [if_neg hi10, if_neg hb]
      have hmod : (u % 128 + 128) % 128 = u % 128 := by omega
      have hfit : u % 128 * 2 ^ s < 2 ^ 64 := by
        have h1 : u % 128 * 2 ^ s ≤ u * 2 ^ s :=
          Nat.mul_le_mul_right _ (Nat.mod_le _ _)
        omega
      have hsplit : u % 128 + 128 * (u / 128) = u := Nat.mod_add_div u 128
      have hpow : (2 : Nat) ^ (s + 7) = 2 ^ s * 128 := by
        rw [Nat.pow_add]
      have hs7 : s + 7 ≤ 64 := by
        have h128 : 128 * 2 ^ s ≤ u * 2 ^ s := Nat.mul_le_mul_right _ (by omega)
        have hlt : (2 : Nat) ^ (s + 7) ≤ 2 ^ 64 := by
          rw [hpow]
          calc 2 ^ s * 128 = 128 * 2 ^ s := by ring
            _ ≤ u * 2 ^ s := h128
            _ ≤ 2 ^ 64 := by omega
        exact (Nat.pow_le_pow_iff_right (by norm_num)).mp hlt
      have hx' : x + u % 128 * 2 ^ s < 2 ^ (s + 7) := by
        have h127 : u % 128 ≤ 127 := by omega
        have hm : u % 128 * 2 ^ s ≤ 127 * 2 ^ s := Nat.mul_le_mul_right _ h127
        rw [hpow]
        calc x + u % 128 * 2 ^ s < 2 ^ s + 127 * 2 ^ s := by omega
          _ = 2 ^ s * 128 := by ring
      have hfst : x + u % 128 * 2 ^ s + u / 128 * 2 ^ (s + 7) = x + u * 2 ^ s := by
        rw [hpow]
        calc x + u % 128 * 2 ^ s + u / 128 * (2 ^ s * 128)
            = x + (u % 128 + 128 * (u / 128)) * 2 ^ s := by ring
          _ = x + u * 2 ^ s := by rw [hsplit]
      have hbound' : x + u % 128 * 2 ^ s + u / 128 * 2 ^ (s + 7) < 2 ^ 64 := by
        omega
      rw [hmod, Nat.shiftLeft_eq, Nat.mod_eq_of_lt hfit, lor_mul_two_pow _ hx]
      have hrec := ih (u / 128) (Nat.div_lt_self (by omega) (by omega))
        (x + u % 128 * 2 ^ s) (s + 7) (i + 1) rest (by omega) (by omega) hx' hbound'
      refine hrec.trans ?_
      rw [hfst]
      congr 1
      push_cast
      ring

/-- Go Uvarint reads back exactly what PutUvarint wrote, together with the
byte count, for any uint64 value and any trailing bytes. -/
theorem uvarint_putUvarint {u : Nat} (h : u < 2 ^ 64) (rest : List Nat) :
    uvarint (putUvarint u ++ rest) = (u, ((putUvarint u).length : Int)) := by
  have h0 := uvarintAux_putUvarint u 0 0 0 rest (by ring) (by omega)
    (by norm_num) (by simpa using h)
  simpa [uvarint] using h0

/-- Go Varint reads back exactly what PutVarint wrote, together with the
byte count, for any int64-ranged value and any trailing bytes. -/
theorem varint_putVarint {x : Int} (h1 : -(2 ^ 63) ≤ x) (h2 : x < 2 ^ 63)
    (rest : List Nat) :
    varint (putVarint x ++ rest) = (x, ((putVarint x).length : Int)) := by
  unfold varint putVarint
  rw [uvarint_putUvarint (zigzag_lt x) rest]
  simp [unzigzag_zigzag h1 h2]

/-! ## C7: memValue encode / decode -/

/-- C7: the in-memory value slot encoding is a single type-tag byte, then
the zig-zag signed-varint expiration, then the raw value bytes with no
length prefix; consequently decoding an encoded slot returns a `memValue`
with the same type tag, the same expiration and the same value bytes (the
expiration ranges over int64). -/
theorem mem_value_encode_decode (mv : memValue)
    (h1 : -(2 ^ 63) ≤ mv.expiredAt) (h2 : mv.expiredAt < 2 ^ 63) :
    mv.encode = mv.typ :: (putVarint mv.expiredAt ++ mv.value) ∧
    decodeMemValue mv.encode = mv := by
  obtain ⟨v, e, t⟩ := mv
  refine ⟨rfl, ?_⟩
  have hv := varint_putVarint h1 h2 v
  have hdrop1 : (t :: (putVarint e ++ v)).drop 1 = putVarint e ++ v := rfl
  have htn : ((1 : Int) + ((putVarint e).length : Int)).toNat
      = (putVarint e).length + 1 := by omega
  simp only [memValue.encode, decodeMemValue, hdrop1, hv, List.headD_cons, htn]
  rw [List.drop_succ_cons, List.drop_left]

/-- Closed instance of the encode / decode round trip. -/
theorem mem_value_encode_decode_witness :
    (-(2 ^ 63) ≤ (-5 : Int)) ∧ ((-5 : Int) < 2 ^ 63) ∧
      decodeMemValue (memValue.mk [7, 8] (-5) 1).encode = memValue.mk [7, 8] (-5) 1 :=
  ⟨by norm_num, by norm_num,
    (mem_value_encode_decode (memValue.mk [7, 8] (-5) 1)
      (by norm_num) (by norm_num)).2⟩

/-! ## C8: DEPMETA persistence -/

/-- C8: a clean Close writes the DEPMETA file as exactly 8 bytes —
`deprecated_count` as little-endian u32 then `total_count` as
little-endian u32, equal to the value log counters at close time — and
Open reads the two counters back in the same order and encoding. -/
theorem depmeta_close_open_roundtrip (dep total : Nat)
    (h1 : dep < 2 ^ 32) (h2 : total < 2 ^ 32) :
    (closeDepMetaBytes dep total).length = 8 ∧
    openReadDepMeta (closeDepMetaBytes dep total) = some (dep, total) := by
  have h3 : (2 : Nat) ^ 32 = 4294967296 := by norm_num
  rw [h3] at h1 h2
  refine ⟨rfl, ?_⟩
  simp only [closeDepMetaBytes, putUint32LE, List.cons_append, List.nil_append,
    openReadDepMeta, readUint32LE, Option.some.injEq, Prod.mk.injEq]
  omega

/-- Closed instance of the DEPMETA round trip. -/
theorem depmeta_close_open_roundtrip_witness :
    (70000 : Nat) < 2 ^ 32 ∧ (4000000000 : Nat) < 2 ^ 32 ∧
      openReadDepMeta (closeDepMetaBytes 70000 4000000000)
        = some (70000, 4000000000) :=
  ⟨by norm_num, by norm_num,
    (depmeta_close_open_roundtrip 70000 4000000000 (by norm_num) (by norm_num)).2⟩

/-! ## C5: auto-compaction threshold signaling -/

/-- C5: after a flush with auto-compaction enabled, with U the deprecated
count and the two computed thresholds: U ≥ upper sends
ArriveUpperThreshold; otherwise U > lower sends ArriveLowerThreshold;
otherwise nothing is sent — with exactly these strictnesses. -/
theorem auto_compact_signal_cases (U rLo rHi : Nat) :
    (U ≥ rHi → autoCompactSignal U rLo rHi = some ThresholdState.arriveUpperThreshold) ∧
    (U < rHi → U > rLo → autoCompactSignal U rLo rHi = some ThresholdState.arriveLowerThreshold) ∧
    (U < rHi → U ≤ rLo → autoCompactSignal U rLo rHi = none) := by
  unfold autoCompactSignal
  refine ⟨fun h => by rw [if_pos h], fun h h2 => ?_, fun h h2 => ?_⟩
  · rw [if_neg (by omega), if_pos h2]
  · rw [if_neg (by omega), if_neg (by omega)]

/-- Closed instance of the threshold signaling. -/
theorem auto_compact_signal_cases_witness :
    autoCompactSignal 5 1 3 = some ThresholdState.arriveUpperThreshold ∧
    autoCompactSignal 2 1 3 = some ThresholdState.arriveLowerThreshold ∧
    autoCompactSignal 1 1 3 = none :=
  ⟨(auto_compact_signal_cases 5 1 3).1 (by norm_num),
   (auto_compact_signal_cases 2 1 3).2.1 (by norm_num) (by norm_num),
   (auto_compact_signal_cases 1 1 3).2.2 (by norm_num) (by norm_num)⟩

/-! ## C4: WAL write failure leaves the skip list unchanged -/

/-- C4: when the WAL is enabled (not disabled by options, non-nil handle)
and the WAL append fails, `memtable.put` returns that error to the caller
and the whole memtable — in particular its skip list — is unchanged. -/
theorem put_wal_write_error_keeps_skl (mt : Memtable) (key value : List Nat)
    (deleted : Bool) (opts : EntryOptions) (e : Nat) (syncErr : Option Nat)
    (hdw : opts.DisableWal = false) (hwal : mt.wal.isSome = true) :
    mt.put key value deleted opts (some e) syncErr = (some e, mt) ∧
    (mt.put key value deleted opts (some e) syncErr).2.skl = mt.skl := by
  have h : mt.put key value deleted opts (some e) syncErr = (some e, mt) := by
    simp [Memtable.put, hdw, hwal]
  exact ⟨h, by rw [h]⟩

/-- Closed instance of the WAL-failure frame property. -/
theorem put_wal_write_error_keeps_skl_witness :
    mtLiveA.put [1] [2] false (EntryOptions.mk false false 0) (some 3) none
      = (some 3, mtLiveA) :=
  (put_wal_write_error_keeps_skl mtLiveA [1] [2] false
    (EntryOptions.mk false false 0) 3 none rfl rfl).1

/-! ## C9: waitMemtableSpace timeout is side-effect free -/

/-- C9: when the active memtable is full and the flush channel does not
accept it before the timer fires, `waitMemtableSpace` returns the
distinct timeout error and the state — active-memtable pointer and
immutable list — is exactly as before. -/
theorem wait_memtable_space_timeout_frame (db : DbMemState)
    (newTable : Except DbError Memtable) (hfull : db.activeMem.isFull = true) :
    waitMemtableSpace db false newTable
      = (some DbError.waitMemtableSpaceTimeOut, db) ∧
    (waitMemtableSpace db false newTable).2.activeMem = db.activeMem ∧
    (waitMemtableSpace db false newTable).2.immuMems = db.immuMems := by
  have h : waitMemtableSpace db false newTable
      = (some DbError.waitMemtableSpaceTimeOut, db) := by
    simp [waitMemtableSpace, hfull]
  exact ⟨h, by rw [h], by rw [h]⟩

/-- Closed instance of the timeout frame property. -/
theorem wait_memtable_space_timeout_frame_witness :
    waitMemtableSpace ⟨mtFullExample, [mtLiveB]⟩ false (Except.error DbError.openMemtableFailed)
      = (some DbError.waitMemtableSpaceTimeOut, ⟨mtFullExample, [mtLiveB]⟩) :=
  (wait_memtable_space_timeout_frame ⟨mtFullExample, [mtLiveB]⟩
    (Except.error DbError.openMemtableFailed) rfl).1

/-! ## C10: the two-valued result of memtable.get -/

/-- C10: `memtable.get` returns only a pair: `(false, nil)` for an absent
key, `(false, value)` for a live entry, and `(true, nil)` — nothing
else — for a tombstoned or an expired entry, so the boolean alone cannot
separate absent from live and a tombstone from an expired entry. -/
theorem memtable_get_cases (mt : Memtable) (now : Int) (key : List Nat) :
    (sklGet mt.skl key = none → mt.get now key = (false, none)) ∧
    (∀ vs, sklGet mt.skl key = some vs →
      ((decodeMemValue vs.value).typ = TypeDelete → mt.get now key = (true, none)) ∧
      ((decodeMemValue vs.value).typ ≠ TypeDelete →
        0 < (decodeMemValue vs.value).expiredAt →
        (decodeMemValue vs.value).expiredAt ≤ now →
        mt.get now key = (true, none)) ∧
      ((decodeMemValue vs.value).typ ≠ TypeDelete →
        ¬(0 < (decodeMemValue vs.value).expiredAt ∧
            (decodeMemValue vs.value).expiredAt ≤ now) →
        mt.get now key = (false, some (decodeMemValue vs.value).value))) := by
  constructor
  · intro h
    simp [Memtable.get, h]
  · intro vs h
    refine ⟨fun ht => ?_, fun ht h1 h2 => ?_, fun ht hne => ?_⟩
    · simp [Memtable.get, h, ht]
    · simp [Memtable.get, h, ht, h1, h2]
    · simp [Memtable.get, h, ht, hne]

/-- Closed instances of the three get shapes. -/
theorem memtable_get_cases_witness :
    mtLive9.get 0 [2] = (false, none) ∧
    mtLive9.get 0 [1] = (false, some [9]) ∧
    mtExpired.get 100 [9] = (true, none) :=
  ⟨(memtable_get_cases mtLive9 0 [2]).1 (by decide),
   (((memtable_get_cases mtLive9 0 [1]).2 ⟨0, [0, 0, 9]⟩ (by decide)).2.2
      (by decide) (by decide)).trans (by decide),
   (((memtable_get_cases mtExpired 100 [9]).2 vsExpired (by decide)).2.1
      (by decide) (by decide) (by decide))⟩

/-! ## C1: memtable tiers are consulted newest-first -/

/-- Reading every position of a list at the mirrored index, as the
`getMemTables` loop does, is reversal. -/
theorem range_map_getD_reverse {α : Type} (l : List α) (d : α) :
    (List.range l.length).map (fun i => l.getD (l.length - 1 - i) d) = l.reverse := by
  apply List.ext_getElem
  · simp
  · intro i h1 h2
    have hlen : i < l.length := by simpa using h2
    have hidx : l.length - 1 - i < l.length := by omega
    simp only [List.getElem_map, List.getElem_range, List.getElem_reverse,
      List.getD_eq_getElem?_getD, List.getElem?_eq_getElem hidx, Option.getD_some]

/-- Walking a tier list in which every memtable before `t` misses yields
the result of `t` no matter what comes after it. -/
theorem lookupMemtables_first_hit (now : Int) (key : List Nat)
    (t : Memtable) (post : List Memtable) :
    ∀ pre : List Memtable, (∀ u ∈ pre, u.get now key = (false, none)) →
      t.get now key ≠ (false, none) →
      lookupMemtables now key (pre ++ t :: post) = some (t.get now key) := by
  intro pre
  induction pre with
  | nil =>
    intro _ hhit
    simp [lookupMemtables, hhit]
  | cons a as ihp =>
    intro hmiss hhit
    have ha : a.get now key = (false, none) := hmiss a (List.mem_cons_self a as)
    have hstep : lookupMemtables now key ((a :: as) ++ t :: post)
        = lookupMemtables now key (as ++ t :: post) := by
      simp [lookupMemtables, ha]
    rw [hstep]
    exact ihp (fun u hu => hmiss u (List.mem_cons_of_mem a hu)) hhit

/-- C1: `getMemTables` lists the active memtable first and then the
immutable memtables newest-first (the reverse of the append-ordered
immutable list), and in the tier walk the version found in an
earlier-listed tier wins over any version in a later tier. -/
theorem getMemTables_newest_first (db : DbMemState) (now : Int) (key : List Nat) :
    getMemTables db = db.activeMem :: db.immuMems.reverse ∧
    (∀ pre t post, getMemTables db = pre ++ t :: post →
      (∀ u ∈ pre, u.get now key = (false, none)) →
      t.get now key ≠ (false, none) →
      lookupMemtables now key (getMemTables db) = some (t.get now key)) := by
  constructor
  · simp only [getMemTables]
    rw [range_map_getD_reverse]
    simp
  · intro pre t post heq hmiss hhit
    rw [heq]
    exact lookupMemtables_first_hit now key t post pre hmiss hhit

/-- Closed instance: with an active memtable and one immutable memtable
both holding key 1, the walk returns the active memtable's version. -/
theorem getMemTables_newest_first_witness :
    lookupMemtables 0 [1] (getMemTables ⟨mtLiveA, [mtLiveB]⟩)
      = some (false, some [65]) :=
  ((getMemTables_newest_first ⟨mtLiveA, [mtLiveB]⟩ 0 [1]).2 [] mtLiveA [mtLiveB]
    (by decide) (by simp) (by decide)).trans (by decide)

/-! ## C2: expired entries — readers versus the flusher -/

/-- C2 counterexample: the slot under key 9 carries the non-zero
expiration 1 ≤ now = 100 and the reader reports it tombstoned-or-expired,
yet the flush classification leaves the deleted-keys list empty and emits
the entry as a live value-log record. -/
theorem flush_expired_live_counterexample :
    0 < (decodeMemValue vsExpired.value).expiredAt ∧
    (decodeMemValue vsExpired.value).expiredAt ≤ 100 ∧
    mtExpired.get 100 [9] = (true, none) ∧
    flushClassify [([9], vsExpired)] = ([], [([9], vsExpired.value)]) ∧
    (flushClassify [([9], vsExpired)]).1 = [] := by
  refine ⟨by decide, by decide, by decide, by decide, by decide⟩

/-- C2 amended: `memtable.get` reports a non-tombstone entry with a
non-zero expiration ≤ now as tombstoned-or-expired, but `flushMemtable`
classifies entries solely by the meta tag: the deleted keys are exactly
the entries whose meta equals LogRecordDeleted and every other entry —
expired or not — is emitted as a live value-log record. -/
theorem flush_classifies_by_meta_and_get_expired :
    (∀ (mt : Memtable) (now : Int) (key : List Nat) (vs : ValueStruct),
      sklGet mt.skl key = some vs →
      (decodeMemValue vs.value).typ ≠ TypeDelete →
      0 < (decodeMemValue vs.value).expiredAt →
      (decodeMemValue vs.value).expiredAt ≤ now →
      mt.get now key = (true, none)) ∧
    (∀ entries : List (List Nat × ValueStruct),
      flushClassify entries =
        ((entries.filter (fun en => en.2.meta == LogRecordDeleted)).map (fun en => en.1),
         (entries.filter (fun en => !(en.2.meta == LogRecordDeleted))).map
           (fun en => (en.1, en.2.value)))) := by
  constructor
  · intro mt now key vs h ht h1 h2
    simp [Memtable.get, h, ht, h1, h2]
  · intro entries
    induction entries with
    | nil => rfl
    | cons en rest ihe =>
      obtain ⟨key, vs⟩ := en
      by_cases hm : vs.meta = LogRecordDeleted
      · simp [flushClassify, hm, ihe]
      · simp [flushClassify, hm, ihe]

/-- Closed instance of the amended claim: the reader half on the expired
slot, and the meta-only classification on a two-entry memtable. -/
theorem flush_classifies_by_meta_witness :
    mtExpired.get 100 [9] = (true, none) ∧
    flushClassify [([9], vsExpired), ([3], ⟨1, [1, 0]⟩)]
      = ([[3]], [([9], vsExpired.value)]) :=
  ⟨flush_classifies_by_meta_and_get_expired.1 mtExpired 100 [9] vsExpired
      (by decide) (by decide) (by decide) (by decide),
   (flush_classifies_by_meta_and_get_expired.2
      [([9], vsExpired), ([3], ⟨1, [1, 0]⟩)]).trans (by decide)⟩

/-! ## C3: order of the value-log file replacement in compaction -/

/-- In the replacement step list, the delete occurs only at index 0 and
the rename only at index 2. -/
theorem vlogReplaceSteps_indices :
    (∀ k, vlogReplaceSteps[k]? = some CompactAction.deleteOldFile → k = 0) ∧
    (∀ k, vlogReplaceSteps[k]? = some CompactAction.renameNewFileExt → k = 2) := by
  refine ⟨fun k h => ?_, fun k h => ?_⟩ <;>
    rcases k with _ | _ | _ | _ | k <;> simp_all [vlogReplaceSteps]

/-- In the trace of a partition worker, any delete of the old file is at
index `n` and any rename of the new file at index `n + 2`, so the delete
strictly precedes the rename. -/
theorem trace_del_lt_rename (n i j : Nat)
    (hdel : (List.replicate n CompactAction.processChunk ++ vlogReplaceSteps)[i]?
      = some CompactAction.deleteOldFile)
    (hren : (List.replicate n CompactAction.processChunk ++ vlogReplaceSteps)[j]?
      = some CompactAction.renameNewFileExt) : i < j := by
  have hi : i = n := by
    rcases Nat.lt_or_ge i n with h | h
    · rw [List.getElem?_append_left (by simpa using h), List.getElem?_replicate,
        if_pos h] at hdel
      exact absurd (Option.some.inj hdel) (by decide)
    · rw [List.getElem?_append_right (by simpa using h)] at hdel
      have h0 := vlogReplaceSteps_indices.1 (i - n) (by simpa using hdel)
      omega
  have hj : j = n + 2 := by
    rcases Nat.lt_or_ge j n with h | h
    · rw [List.getElem?_append_left (by simpa using h), List.getElem?_replicate,
        if_pos h] at hren
      exact absurd (Option.some.inj hren) (by decide)
    · rw [List.getElem?_append_right (by simpa using h)] at hren
      have h2 := vlogReplaceSteps_indices.2 (j - n) (by simpa using hren)
      omega
  omega

/-- No sync of the new value-log file occurs anywhere in a partition
worker trace. -/
theorem sync_not_mem_trace (n : Nat) :
    CompactAction.syncNewFile ∉
      List.replicate n CompactAction.processChunk ++ vlogReplaceSteps := by
  intro h
  rcases List.mem_append.mp h with h | h
  · exact absurd (List.eq_of_mem_replicate h) (by decide)
  · simp [vlogReplaceSteps] at h

/-- C3 counterexample: in both compaction traces the old-file delete
occurs strictly before the rename of the replacement file to the live
extension, and no fsync of the replacement file occurs at all —
contradicting that the delete never precedes the rename. -/
theorem compact_delete_before_rename_counterexample :
    (compactPartitionTrace 3)[3]? = some CompactAction.deleteOldFile ∧
    (compactPartitionTrace 3)[5]? = some CompactAction.renameNewFileExt ∧
    (3 : Nat) < 5 ∧
    CompactAction.syncNewFile ∉ compactPartitionTrace 3 ∧
    (compactWithDepPartitionTrace 2)[2]? = some CompactAction.deleteOldFile ∧
    (compactWithDepPartitionTrace 2)[4]? = some CompactAction.renameNewFileExt ∧
    (2 : Nat) < 4 ∧
    CompactAction.syncNewFile ∉ compactWithDepPartitionTrace 2 := by
  refine ⟨by decide, by decide, by decide, by decide, by decide, by decide,
    by decide, by decide⟩

/-- C3 amended: in every partition worker of both Compact and
CompactWithDeprecatedtable, the old value-log segment file is deleted
strictly before the replacement file is renamed to the live extension
(the delete always precedes the rename), and the replacement file is
never fsynced in the trace. -/
theorem compact_replace_order (n i j : Nat) :
    ((compactPartitionTrace n)[i]? = some CompactAction.deleteOldFile →
      (compactPartitionTrace n)[j]? = some CompactAction.renameNewFileExt →
      i < j) ∧
    ((compactWithDepPartitionTrace n)[i]? = some CompactAction.deleteOldFile →
      (compactWithDepPartitionTrace n)[j]? = some CompactAction.renameNewFileExt →
      i < j) ∧
    CompactAction.syncNewFile ∉ compactPartitionTrace n ∧
    CompactAction.syncNewFile ∉ compactWithDepPartitionTrace n :=
  ⟨fun hdel hren => trace_del_lt_rename n i j hdel hren,
   fun hdel hren => trace_del_lt_rename n i j hdel hren,
   sync_not_mem_trace n, sync_not_mem_trace n⟩

/-- Closed instance of the amended replacement order. -/
theorem compact_replace_order_witness :
    (1 : Nat) < 3 ∧ CompactAction.syncNewFile ∉ compactPartitionTrace 1 :=
  ⟨(compact_replace_order 1 1 3).1 (by decide) (by decide),
   (compact_replace_order 1 1 3).2.2.1⟩

/-! ## C6: validity test of CompactWithDeprecatedtable -/

/-- C6 counterexample: with the Hash index, a record that is not
deprecated and whose index position matches is appended to the valid
batch twice, not exactly once. -/
theorem compact_dep_double_append_counterexample :
    compactDepStep (fun _ _ => false) (fun _ => some ⟨0, 5⟩) IndexType.Hash 0 5 []
        ⟨[1], [2], 7⟩
      = [⟨[1], [2], 7⟩, ⟨[1], [2], 7⟩] ∧
    (compactDepStep (fun _ _ => false) (fun _ => some ⟨0, 5⟩) IndexType.Hash 0 5 []
        ⟨[1], [2], 7⟩).count ⟨[1], [2], 7⟩ = 2 := by
  refine ⟨by decide, by decide⟩

/-- C6 amended: per record the loop appends once when the record's uid is
not deprecated, and — when the index type is Hash — appends an additional
time when the index position check passes; so with the B-tree index the
deprecated test alone decides, and with the Hash index a non-deprecated
record with a passing position check survives twice while a deprecated
record with a passing position check still survives once. -/
theorem compact_dep_step_counts (isDep : Nat → Nat → Bool)
    (indexGet : List Nat → Option KeyPosition) (indexType : IndexType)
    (part pos : Nat) (validRecords : List ValueLogRecord)
    (record : ValueLogRecord) :
    (indexType = IndexType.BTree →
      compactDepStep isDep indexGet indexType part pos validRecords record
        = if isDep part record.uid then validRecords
          else validRecords ++ [record]) ∧
    (compactDepStep isDep indexGet indexType part pos validRecords record).count record
      = validRecords.count record
        + (if isDep part record.uid then 0 else 1)
        + (if indexType = IndexType.Hash ∧
              hashPositionValid indexGet part pos record.key = true
            then 1 else 0) := by
  constructor
  · intro hbt
    subst hbt
    simp only [compactDepStep]
    rw [if_neg (by decide)]
    by_cases hd : isDep part record.uid
    · simp [hd]
    · simp [hd]
  · rcases indexType with _ | _
    · by_cases hd : isDep part record.uid <;>
        simp [compactDepStep, hashPositionValid, hd, List.count_append]
    · rcases hig : indexGet record.key with _ | kp
      · by_cases hd : isDep part record.uid <;>
          simp [compactDepStep, hashPositionValid, hig, hd, List.count_append]
      · by_cases hpos : kp.partition = part ∧ kp.position = pos
        · by_cases hd : isDep part record.uid <;>
            simp [compactDepStep, hashPositionValid, hig, hpos, hd, List.count_append]
        · by_cases hd : isDep part record.uid <;>
            simp [compactDepStep, hashPositionValid, hig, hpos, hd, List.count_append]

/-- Closed instance of the amended per-record count. -/
theorem compact_dep_step_counts_witness :
    compactDepStep (fun _ _ => false) (fun _ => none) IndexType.BTree 1 2 []
        ⟨[3], [4], 8⟩
      = [⟨[3], [4], 8⟩] :=
  ((compact_dep_step_counts (fun _ _ => false) (fun _ => none) IndexType.BTree 1 2 []
      ⟨[3], [4], 8⟩).1 rfl).trans (by decide)

end LotusDB
